import Mathlib

/-!
Verification of the research-MCP agent repository.

Shallow embedding of the three source files:
  - research_mcp_server.py: the tool-serving side, in particular the
    tavily_web_search tool (answer / formatted top-3 results / fallback).
  - research_mcp_graph_client.py: the LangGraph control loop
    (tool_calling_llm node, tools node, conditional edges) and the
    trace-inspection code that walks the final message list.
  - research_mcp_client.py: the inspect_tool_usage helper.

The reasoning engine is opaque: it is a parameter mapping the current
message list to an assistant turn (text plus requested tool calls).
Tool invocation is likewise a parameter mapping a tool call to an outcome.
-/

namespace ResearchMCP

/-- A tool call as emitted inside an assistant message:
an id, a tool name, and string-keyed arguments. -/
structure ToolCall where
  id : String
  name : String
  args : List (String × String)
deriving Repr, DecidableEq

/-- Messages of the conversation transcript: a human question,
an assistant turn (text and requested tool calls), or a tool result
correlated to a call id. -/
inductive Message where
  | human (text : String)
  | assistant (text : String) (toolCalls : List ToolCall)
  | toolResult (callId : String) (toolName : String) (text : String)
deriving Repr, DecidableEq

/-- One search hit returned by the Tavily wrapper. -/
structure TavilyItem where
  title : String
  url : String
  content : String
deriving Repr, DecidableEq

/-- The mapping returned by the Tavily wrapper: an optional direct-answer
field and an optional list of search hits.  A missing dictionary key is
`none`. -/
structure TavilyResult where
  answer : Option String
  results : Option (List TavilyItem)
deriving Repr, DecidableEq

/-- Python truthiness of `result.get("answer")`: present and non-empty. -/
def pyTruthyStr : Option String → Bool
  | none => false
  | some s => !(s == "")

/-- Python truthiness of `result.get("results")`: present and non-empty. -/
def pyTruthyList : Option (List TavilyItem) → Bool
  | none => false
  | some l => !l.isEmpty

/-- One line of the formatted result list, from the f-string in
`tavily_web_search`: index+1, title, dash, url, newline, content. -/
def formatResultItem : Nat × TavilyItem → String
  | (i, item) =>
      toString (i + 1) ++ ". " ++ item.title ++ " - " ++ item.url
        ++ "\n" ++ item.content

/-- Embedding of `tavily_web_search` from research_mcp_server.py:
return the direct answer if truthy, else the newline-joined enumeration of
the first three results, else the no-results literal. -/
def tavily_web_search (result : TavilyResult) : String :=
  if pyTruthyStr result.answer then result.answer.getD ""
  else if pyTruthyList result.results then
    String.intercalate "\n"
      (((result.results.getD []).take 3).enum.map formatResultItem)
  else "No relevant information found."

/-- C3: for every result mapping, the web-search tool returns the
direct-answer field when one is available (present and non-empty);
otherwise, when a non-empty results list is available, it returns the
newline-joined numbered list (title, url, content) of the top results;
otherwise it returns the literal no-results string. -/
theorem c3_web_search_branches (r : TavilyResult) :
    (∀ a, r.answer = some a → a ≠ "" → tavily_web_search r = a) ∧
    (pyTruthyStr r.answer = false → ∀ l, r.results = some l → l ≠ [] →
      tavily_web_search r
        = String.intercalate "\n" ((l.take 3).enum.map formatResultItem)) ∧
    (pyTruthyStr r.answer = false → pyTruthyList r.results = false →
      tavily_web_search r = "No relevant information found.") := by
  refine ⟨?_, ?_, ?_⟩
  · intro a ha hne
    simp [tavily_web_search, pyTruthyStr, ha, hne]
  · intro hfalse l hl hne
    simp [tavily_web_search, pyTruthyList, hfalse, hl, hne]
  · intro hfalse1 hfalse2
    simp [tavily_web_search, hfalse1, hfalse2]

/-- Closed instantiation of `c3_web_search_branches` on concrete inputs,
one per branch. -/
theorem c3_web_search_branches_witness :
    tavily_web_search ⟨some "42", none⟩ = "42" ∧
    tavily_web_search ⟨none, some [⟨"T", "U", "C"⟩]⟩
      = String.intercalate "\n"
          (([(⟨"T", "U", "C"⟩ : TavilyItem)].take 3).enum.map formatResultItem) ∧
    tavily_web_search ⟨none, none⟩ = "No relevant information found." := by
  refine ⟨(c3_web_search_branches _).1 "42" rfl (by decide), ?_, ?_⟩
  · exact (c3_web_search_branches _).2.1 (by decide) _ rfl (by decide)
  · exact (c3_web_search_branches _).2.2 (by decide) (by decide)

/-- C10: a falsy direct-answer field (empty string present in the mapping)
is treated identically to an absent one, and the formatted list depends
only on the first three results: the output on a results list equals the
output on its three-element truncation, and the number of formatted
entries is at most three. -/
theorem c10_falsy_answer_top3 :
    (∀ res, tavily_web_search ⟨some "", res⟩ = tavily_web_search ⟨none, res⟩) ∧
    (∀ a l, tavily_web_search ⟨a, some l⟩ = tavily_web_search ⟨a, some (l.take 3)⟩ ∧
      ((l.take 3).enum.map formatResultItem).length ≤ 3) := by
  constructor
  · intro res
    simp [tavily_web_search, pyTruthyStr]
  · intro a l
    constructor
    · have htrunc : (l.take 3).take 3 = l.take 3 := by
        simp [List.take_take]
      have hempty : (l.take 3).isEmpty = l.isEmpty := by
        cases l <;> simp
      simp [tavily_web_search, pyTruthyList, htrunc, hempty]
    · have h3 : (l.take 3).length ≤ 3 := List.length_take_le 3 l
      simp [h3]

/-- Outcome of one tool invocation, as seen by the control loop:
a successful text result, an execution failure (error, timeout, malformed
payload) with a description, or a transport-level unavailability. -/
inductive ToolOutcome where
  | ok (text : String)
  | execError (desc : String)
  | unavailable
deriving Repr, DecidableEq

/-- The opaque reasoning engine: maps the current message list to one
assistant turn, given as its text and its requested tool calls. -/
def Engine : Type := List Message → String × List ToolCall

/-- The opaque tool invoker: maps one tool call to its outcome. -/
def Invoker : Type := ToolCall → ToolOutcome

/-- Modelled from the spec: the tools node converts a per-call execution
failure into regular tool-result text describing the failure (the
ToolNode internals are library code, not in this repository). -/
def outcomeText : ToolOutcome → String
  | .ok t => t
  | .execError d => "ToolExecutionError: " ++ d
  | .unavailable => ""

/-- The tool-result message recorded for one call: same call id and tool
name, text from the outcome. -/
def mkResult (invoke : Invoker) (c : ToolCall) : Message :=
  .toolResult c.id c.name (outcomeText (invoke c))

/-- Modelled from the spec: executing one batch of tool calls.  A
transport-level unavailable call fails the whole batch; otherwise one
tool-result per call is produced, in the order the calls were issued,
with execution failures surfaced as result text. -/
def runBatch (invoke : Invoker) (calls : List ToolCall) :
    Except Unit (List Message) :=
  if calls.all (fun c => !(invoke c == .unavailable)) then
    .ok (calls.map (mkResult invoke))
  else .error ()

/-- States of the control loop: about to call the reasoning engine, about
to execute a batch of tool calls, terminated normally, or terminated by a
transport-level tool failure.  Each state carries the transcript. -/
inductive LoopState where
  | awaitingReasoning (msgs : List Message)
  | awaitingToolResults (msgs : List Message) (calls : List ToolCall)
  | done (msgs : List Message)
  | failed (msgs : List Message)
deriving Repr, DecidableEq

/-- The transcript carried by a loop state. -/
def LoopState.msgs : LoopState → List Message
  | .awaitingReasoning m => m
  | .awaitingToolResults m _ => m
  | .done m => m
  | .failed m => m

/-- Whether a loop state is the normal terminal state. -/
def LoopState.isDone : LoopState → Bool
  | .done _ => true
  | _ => false

/-- One transition of the control loop from research_mcp_graph_client.py:
from `awaitingReasoning` the tool_calling_llm node appends the assistant
turn and tools_condition routes to the tools node when the turn carries
tool calls, to the end otherwise; from `awaitingToolResults` the tools
node appends one result per call and the static edge returns to the
tool_calling_llm node.  Terminal states are absorbing. -/
def stepLoop (engine : Engine) (invoke : Invoker) : LoopState → LoopState
  | .awaitingReasoning msgs =>
      let turn := engine msgs
      let msgs2 := msgs ++ [.assistant turn.1 turn.2]
      if turn.2.isEmpty then .done msgs2
      else .awaitingToolResults msgs2 turn.2
  | .awaitingToolResults msgs calls =>
      match runBatch invoke calls with
      | .ok results => .awaitingReasoning (msgs ++ results)
      | .error _ => .failed msgs
  | .done msgs => .done msgs
  | .failed msgs => .failed msgs

/-- The initial loop state for a question: a single human message. -/
def initState (question : String) : LoopState :=
  .awaitingReasoning [.human question]

/-- The loop state after `n` transitions on a question. -/
def iterateLoop (engine : Engine) (invoke : Invoker) (question : String)
    (n : Nat) : LoopState :=
  (stepLoop engine invoke)^[n] (initState question)

/-- A fixed tool call, used to exercise the loop. -/
def echoCall : ToolCall := ⟨"call-0", "echo", [("query", "x")]⟩

/-- A reasoning engine that always requests one tool call and never
produces a final answer. -/
def alwaysToolEngine : Engine := fun _ => ("", [echoCall])

/-- A reasoning engine that immediately answers with no tool calls. -/
def answerEngine : Engine := fun _ => ("ans", [])

/-- An invoker whose calls all succeed. -/
def okInvoke : Invoker := fun _ => .ok "x"

/-- Shape invariant of the run driven by `alwaysToolEngine`: after `n`
transitions the loop is awaiting reasoning or awaiting one echo batch,
with a transcript of length `n + 1`. -/
theorem alwaysTool_shape (n : Nat) :
    (∃ m, iterateLoop alwaysToolEngine okInvoke "q" n
        = .awaitingReasoning m ∧ m.length = n + 1)
    ∨ (∃ m, iterateLoop alwaysToolEngine okInvoke "q" n
        = .awaitingToolResults m [echoCall] ∧ m.length = n + 1) := by
  induction n with
  | zero => exact Or.inl ⟨[.human "q"], rfl, rfl⟩
  | succ n ih =>
    rcases ih with ⟨m, hm, hlen⟩ | ⟨m, hm, hlen⟩
    · refine Or.inr ⟨m ++ [.assistant "" [echoCall]], ?_, ?_⟩
      · rw [iterateLoop, Function.iterate_succ_apply', ← iterateLoop, hm]
        simp [stepLoop, alwaysToolEngine]
      · simp [hlen]
    · refine Or.inl ⟨m ++ [mkResult okInvoke echoCall], ?_, ?_⟩
      · rw [iterateLoop, Function.iterate_succ_apply', ← iterateLoop, hm]
        simp [stepLoop, runBatch, okInvoke]
      · simp [hlen]

/-- C1: the graph of research_mcp_graph_client.py has no iteration bound:
driven by a reasoning engine that always requests a tool call, the loop
never reaches the terminal state and the transcript grows without bound
after any number of transitions; no forced transition to a terminal state
with a synthesized budget-exhausted assistant message exists in the code. -/
theorem c1_unbounded_loop (n : Nat) :
    (iterateLoop alwaysToolEngine okInvoke "q" n).isDone = false ∧
    n + 1 ≤ (iterateLoop alwaysToolEngine okInvoke "q" n).msgs.length := by
  rcases alwaysTool_shape n with ⟨m, hm, hlen⟩ | ⟨m, hm, hlen⟩ <;>
    simp [hm, LoopState.isDone, LoopState.msgs, hlen]

/-- C4: the loop reaches its terminal state exactly when a reasoning step
produces an assistant turn with empty tool calls; after a successful tool
batch the loop always returns to a reasoning step; a tool-execution step
never leads directly to the terminal state; and a terminal state is only
ever entered from a reasoning step with empty tool calls. -/
theorem c4_termination_conditions :
    (∀ (engine : Engine) (invoke : Invoker) (msgs : List Message),
      (stepLoop engine invoke (.awaitingReasoning msgs)).isDone = true
        ↔ (engine msgs).2 = []) ∧
    (∀ (engine : Engine) (invoke : Invoker) (msgs : List Message)
        (calls : List ToolCall),
      (∀ c ∈ calls, invoke c ≠ .unavailable) →
      stepLoop engine invoke (.awaitingToolResults msgs calls)
        = .awaitingReasoning (msgs ++ calls.map (mkResult invoke))) ∧
    (∀ (engine : Engine) (invoke : Invoker) (msgs : List Message)
        (calls : List ToolCall),
      (stepLoop engine invoke (.awaitingToolResults msgs calls)).isDone
        = false) ∧
    (∀ (engine : Engine) (invoke : Invoker) (q : String) (n : Nat),
      (iterateLoop engine invoke q (n + 1)).isDone = true →
      (iterateLoop engine invoke q n).isDone = true ∨
      ∃ msgs, iterateLoop engine invoke q n = .awaitingReasoning msgs ∧
        (engine msgs).2 = []) := by
  refine ⟨?_, ?_, ?_, ?_⟩
  · intro engine invoke msgs
    by_cases h : (engine msgs).2 = [] <;>
      simp [stepLoop, LoopState.isDone, h, List.isEmpty_iff]
  · intro engine invoke msgs calls hno
    have hall : calls.all (fun c => !(invoke c == .unavailable)) = true := by
      rw [List.all_eq_true]
      intro c hc
      simpa using hno c hc
    simp [stepLoop, runBatch, hall]
  · intro engine invoke msgs calls
    rcases h : runBatch invoke calls with e | results <;>
      simp [stepLoop, h, LoopState.isDone]
  · intro engine invoke q n hdone
    rw [iterateLoop, Function.iterate_succ_apply', ← iterateLoop] at hdone
    rcases hstate : iterateLoop engine invoke q n with m | ⟨m, calls⟩ | m | m
    · rw [hstate] at hdone
      refine Or.inr ⟨m, rfl, ?_⟩
      by_cases h : (engine m).2 = []
      · exact h
      · simp [stepLoop, LoopState.isDone, List.isEmpty_iff, h] at hdone
    · rw [hstate] at hdone
      rcases h : runBatch invoke calls with e | results <;>
        simp [stepLoop, h, LoopState.isDone] at hdone
    · exact Or.inl (by simp [LoopState.isDone])
    · rw [hstate] at hdone
      simp [stepLoop, LoopState.isDone] at hdone

/-- Closed instantiation of `c4_termination_conditions`: an immediate
answer terminates, a successful echo batch returns to reasoning, and the
terminal state after one transition is traced back to an empty-toolCalls
reasoning step. -/
theorem c4_termination_conditions_witness :
    ((stepLoop answerEngine okInvoke
        (.awaitingReasoning [.human "q"])).isDone = true) ∧
    (stepLoop answerEngine okInvoke
        (.awaitingToolResults [.human "q"] [echoCall])
      = .awaitingReasoning ([.human "q"] ++ [echoCall].map (mkResult okInvoke))) ∧
    ((iterateLoop answerEngine okInvoke "q" 0).isDone = true ∨
      ∃ msgs, iterateLoop answerEngine okInvoke "q" 0
          = .awaitingReasoning msgs ∧ (answerEngine msgs).2 = []) := by
  refine ⟨?_, ?_, ?_⟩
  · exact (c4_termination_conditions.1 answerEngine okInvoke [.human "q"]).mpr rfl
  · exact c4_termination_conditions.2.1 answerEngine okInvoke [.human "q"]
      [echoCall] (by intro c hc; simp [okInvoke])
  · exact c4_termination_conditions.2.2.2 answerEngine okInvoke "q" 0 rfl

/-- Modelled from the spec: concurrent execution of one batch.  The calls
are launched together; `schedule` lists call indices in the order the
invocations actually complete; each completion deposits its result in a
store keyed by the index of the call that produced it. -/
def completeInOrder (invoke : Invoker) (calls : List ToolCall)
    (schedule : List Nat) : List (Nat × Message) :=
  schedule.filterMap (fun i => calls[i]?.map (fun c => (i, mkResult invoke c)))

/-- Modelled from the spec: after the join over the batch, results are
read out of the completion store in issue order and appended. -/
def runBatchScheduled (invoke : Invoker) (calls : List ToolCall)
    (schedule : List Nat) : List Message :=
  (List.range calls.length).filterMap
    (fun i => (completeInOrder invoke calls schedule).lookup i)

/-- Looking a call index up in the completion store yields exactly the
result of that call, whenever the index was scheduled (or is out of
range, in which case nothing was stored for it). -/
theorem lookup_completeInOrder (invoke : Invoker) (calls : List ToolCall)
    (l : List Nat) (i : Nat) (hi : i ∈ l ∨ calls[i]? = none) :
    (completeInOrder invoke calls l).lookup i
      = calls[i]?.map (mkResult invoke) := by
  induction l with
  | nil =>
    rcases hi with h | h
    · cases h
    · simp [completeInOrder, h]
  | cons a t ih =>
    rcases ha : calls[a]? with _ | c
    · have hdrop : completeInOrder invoke calls (a :: t)
          = completeInOrder invoke calls t := by
        simp [completeInOrder, List.filterMap_cons, ha]
      rw [hdrop]
      apply ih
      rcases hi with h | h
      · rcases List.mem_cons.mp h with rfl | h2
        · exact Or.inr ha
        · exact Or.inl h2
      · exact Or.inr h
    · have hcons : completeInOrder invoke calls (a :: t)
          = (a, mkResult invoke c) :: completeInOrder invoke calls t := by
        simp [completeInOrder, List.filterMap_cons, ha]
      rw [hcons]
      by_cases hia : i = a
      · subst hia
        simp [List.lookup, ha]
      · have hbeq : (i == a) = false := by
          simp [hia]
        simp only [List.lookup, hbeq]
        apply ih
        rcases hi with h | h
        · rcases List.mem_cons.mp h with rfl | h2
          · exact absurd rfl hia
          · exact Or.inl h2
        · exact Or.inr h

/-- Reading a list through indexed option-lookup over its range recovers
the mapped list. -/
theorem filterMap_get_range (f : ToolCall → Message) (l : List ToolCall) :
    (List.range l.length).filterMap (fun i => l[i]?.map f) = l.map f := by
  induction l with
  | nil => simp
  | cons a t ih =>
    rw [List.length_cons, List.range_succ_eq_map]
    rw [List.filterMap_cons, List.filterMap_map]
    have hcomp : ((fun i => (a :: t)[i]?.map f) ∘ Nat.succ)
        = fun i => t[i]?.map f := by
      funext i
      simp
    simp only [hcomp, ih]
    simp

/-- C5: for every batch of tool calls issued in order, the tool results
appended to the transcript appear in issue order regardless of the order
in which the concurrent invocations complete: any completion schedule
that is a permutation of the call indices yields the results in issue
order, any two such schedules yield identical output, and the loop
appends exactly that output. -/
theorem c5_batch_order_independent (invoke : Invoker) (calls : List ToolCall)
    (schedule : List Nat)
    (hperm : schedule.Perm (List.range calls.length)) :
    runBatchScheduled invoke calls schedule = calls.map (mkResult invoke) ∧
    (∀ schedule2, schedule2.Perm (List.range calls.length) →
      runBatchScheduled invoke calls schedule
        = runBatchScheduled invoke calls schedule2) ∧
    (∀ (engine : Engine) (msgs : List Message),
      (∀ c ∈ calls, invoke c ≠ .unavailable) →
      stepLoop engine invoke (.awaitingToolResults msgs calls)
        = .awaitingReasoning (msgs ++ runBatchScheduled invoke calls schedule)) := by
  have hmain : ∀ s : List Nat, s.Perm (List.range calls.length) →
      runBatchScheduled invoke calls s = calls.map (mkResult invoke) := by
    intro s hp
    have heach : ∀ i, i ∈ List.range calls.length →
        (completeInOrder invoke calls s).lookup i
          = calls[i]?.map (mkResult invoke) := by
      intro i hirange
      exact lookup_completeInOrder invoke calls s i
        (Or.inl (hp.mem_iff.mpr hirange))
    calc (List.range calls.length).filterMap
            (fun i => (completeInOrder invoke calls s).lookup i)
        = (List.range calls.length).filterMap
            (fun i => calls[i]?.map (mkResult invoke)) :=
          List.filterMap_congr heach
      _ = calls.map (mkResult invoke) := filterMap_get_range _ _
  refine ⟨hmain schedule hperm, ?_, ?_⟩
  · intro schedule2 hperm2
    rw [hmain schedule hperm, hmain schedule2 hperm2]
  · intro engine msgs hno
    have hall : calls.all (fun c => !(invoke c == .unavailable)) = true := by
      rw [List.all_eq_true]
      intro c hc
      simpa using hno c hc
    rw [hmain schedule hperm]
    simp [stepLoop, runBatch, hall]

/-- Closed instantiation of `c5_batch_order_independent`: two calls with
the second completing before the first still produce results in issue
order. -/
theorem c5_batch_order_independent_witness :
    runBatchScheduled okInvoke
        [⟨"t1", "echo", []⟩, ⟨"t2", "echo", []⟩] [1, 0]
      = [⟨"t1", "echo", []⟩, ⟨"t2", "echo", []⟩].map (mkResult okInvoke) ∧
    runBatchScheduled okInvoke
        [⟨"t1", "echo", []⟩, ⟨"t2", "echo", []⟩] [1, 0]
      = runBatchScheduled okInvoke
          [⟨"t1", "echo", []⟩, ⟨"t2", "echo", []⟩] [0, 1] := by
  have h := c5_batch_order_independent okInvoke
    [⟨"t1", "echo", []⟩, ⟨"t2", "echo", []⟩] [1, 0] (by decide)
  exact ⟨h.1, h.2.1 [0, 1] (by decide)⟩

/-- A reasoning engine that requests one tool call on the fresh question
and answers once a tool result is present. -/
def oneShotEngine : Engine := fun msgs =>
  if msgs.length ≤ 1 then ("", [echoCall]) else ("recovered", [])

/-- An invoker whose calls all fail with an execution error. -/
def failingInvoke : Invoker := fun _ => .execError "timeout"

/-- C8: a tool invocation that errors, times out, or returns a malformed
payload is not fatal: the batch still transitions back to reasoning with
one tool-result per call, the failing call contributing result text that
describes the failure, and a run whose only tool call fails still
terminates with a final answer; only a transport-level unavailable call
terminates the run. -/
theorem c8_failures_nonfatal (engine : Engine) (invoke : Invoker)
    (msgs : List Message) (calls : List ToolCall) :
    ((∀ c ∈ calls, invoke c ≠ .unavailable) →
      stepLoop engine invoke (.awaitingToolResults msgs calls)
        = .awaitingReasoning (msgs ++ calls.map (mkResult invoke)) ∧
      ∀ c ∈ calls, ∀ d, invoke c = .execError d →
        Message.toolResult c.id c.name ("ToolExecutionError: " ++ d)
          ∈ (stepLoop engine invoke (.awaitingToolResults msgs calls)).msgs) ∧
    ((∃ c ∈ calls, invoke c = .unavailable) →
      stepLoop engine invoke (.awaitingToolResults msgs calls)
        = .failed msgs) ∧
    iterateLoop oneShotEngine failingInvoke "q" 3
      = .done [.human "q", .assistant "" [echoCall],
          .toolResult "call-0" "echo" "ToolExecutionError: timeout",
          .assistant "recovered" []] := by
  refine ⟨?_, ?_, by decide⟩
  · intro hno
    have hall : calls.all (fun c => !(invoke c == .unavailable)) = true := by
      rw [List.all_eq_true]
      intro c hc
      simpa using hno c hc
    have hstep : stepLoop engine invoke (.awaitingToolResults msgs calls)
        = .awaitingReasoning (msgs ++ calls.map (mkResult invoke)) := by
      simp [stepLoop, runBatch, hall]
    refine ⟨hstep, ?_⟩
    intro c hc d hd
    rw [hstep]
    have : mkResult invoke c
        = Message.toolResult c.id c.name ("ToolExecutionError: " ++ d) := by
      simp [mkResult, hd, outcomeText]
    rw [LoopState.msgs, List.mem_append]
    exact Or.inr (this ▸ List.mem_map_of_mem (mkResult invoke) hc)
  · intro ⟨c, hc, hun⟩
    have hall : calls.all (fun c => !(invoke c == .unavailable)) = false := by
      rw [List.all_eq_false]
      exact ⟨c, hc, by simp [hun]⟩
    simp [stepLoop, runBatch, hall]

/-- Closed instantiation of `c8_failures_nonfatal`: a failing echo call
is appended as error text and the unavailable case terminates. -/
theorem c8_failures_nonfatal_witness :
    stepLoop answerEngine failingInvoke
        (.awaitingToolResults [.human "q"] [echoCall])
      = .awaitingReasoning ([.human "q"] ++ [echoCall].map (mkResult failingInvoke)) ∧
    Message.toolResult "call-0" "echo" ("ToolExecutionError: " ++ "timeout")
      ∈ (stepLoop answerEngine failingInvoke
          (.awaitingToolResults [.human "q"] [echoCall])).msgs ∧
    stepLoop answerEngine (fun _ => .unavailable)
        (.awaitingToolResults [.human "q"] [echoCall])
      = .failed [.human "q"] := by
  have h := c8_failures_nonfatal answerEngine failingInvoke
    [.human "q"] [echoCall]
  have hno : ∀ c ∈ [echoCall], failingInvoke c ≠ .unavailable := by
    intro c hc
    simp [failingInvoke]
  have h2 := c8_failures_nonfatal answerEngine (fun _ => .unavailable)
    [.human "q"] [echoCall]
  refine ⟨(h.1 hno).1, ?_, ?_⟩
  · exact (h.1 hno).2 echoCall (by decide) "timeout" rfl
  · exact h2.2.1 ⟨echoCall, by decide, rfl⟩

/-- Whether a message is an assistant turn carrying tool calls; the
condition of the first branch of the inspection chain. -/
def usesTool : Message → Bool
  | .assistant _ calls => !calls.isEmpty
  | _ => false

/-- One step of the trace-inspection fold at the end of
research_mcp_graph_client.py: the if/elif chain over one message,
updating the tool_seen flag and the final_answer local.  The pair is
(tool_seen, final_answer); `none` in the second component models the
local never having been assigned. -/
def inspectStep (acc : Bool × Option String) (msg : Message) :
    Bool × Option String :=
  match msg with
  | .assistant t calls =>
      if !calls.isEmpty then (true, acc.2)
      else if !(t == "") then (acc.1, some t)
      else acc
  | .toolResult _ _ _ => acc
  | .human _ => acc

/-- The inspection loop over the final transcript, starting from
tool_seen unset and final_answer unassigned. -/
def inspectTrace (msgs : List Message) : Bool × Option String :=
  msgs.foldl inspectStep (false, none)

/-- The tool_seen flag after inspecting the transcript. -/
def tool_seen (msgs : List Message) : Bool := (inspectTrace msgs).1

/-- The final_answer local after inspecting the transcript; `none` means
it was never assigned, in which case the final print raises instead of
reporting that no answer was produced. -/
def final_answer (msgs : List Message) : Option String :=
  (inspectTrace msgs).2

/-- The first component of the inspection fold is the disjunction of the
incoming flag with tool usage anywhere in the remaining transcript. -/
theorem inspect_fst (msgs : List Message) (b : Bool) (o : Option String) :
    (msgs.foldl inspectStep (b, o)).1 = (b || msgs.any usesTool) := by
  induction msgs generalizing b o with
  | nil => simp
  | cons m t ih =>
    cases m with
    | human txt => simp [inspectStep, usesTool, ih]
    | toolResult i nm txt => simp [inspectStep, usesTool, ih]
    | assistant txt calls =>
      by_cases h : calls.isEmpty
      · by_cases ht : txt = "" <;>
          simp [inspectStep, usesTool, h, ht, ih]
      · simp [inspectStep, usesTool, h, ih]

/-- C6: the trace inspection reports tool usage exactly when some
assistant message in the transcript carries non-empty tool calls,
distinguishing a run answered directly from a run answered via tools. -/
theorem c6_tool_was_used_iff (msgs : List Message) :
    tool_seen msgs = true
      ↔ ∃ t calls, Message.assistant t calls ∈ msgs ∧ calls ≠ [] := by
  rw [tool_seen, inspectTrace, inspect_fst]
  simp only [Bool.false_or, List.any_eq_true]
  constructor
  · rintro ⟨m, hm, hu⟩
    cases m with
    | human txt => simp [usesTool] at hu
    | toolResult i nm txt => simp [usesTool] at hu
    | assistant txt calls =>
      refine ⟨txt, calls, hm, ?_⟩
      simpa [usesTool, List.isEmpty_iff] using hu
  · rintro ⟨t, calls, hm, hne⟩
    exact ⟨.assistant t calls, hm, by simpa [usesTool, List.isEmpty_iff]⟩

/-- An observable event printed by inspect_tool_usage in
research_mcp_client.py: a requested tool call with its arguments, a tool
result (stripped), or a final-answer line. -/
inductive TraceEvent where
  | toolRequested (name : String) (args : List (String × String))
  | toolResultShown (text : String)
  | finalAnswerShown (text : String)
deriving Repr, DecidableEq

/-- The events produced for one message by the three independent if
branches of inspect_tool_usage in research_mcp_client.py. -/
def inspectMsgEvents : Message → List TraceEvent
  | .human _ => []
  | .assistant t calls =>
      (if !calls.isEmpty then calls.map (fun c => .toolRequested c.name c.args)
       else [])
      ++ (if !(t == "") then [.finalAnswerShown t] else [])
  | .toolResult _ _ t => [.toolResultShown t.trim]

/-- The inspection walk over the transcript: it visits every message in
order, emits its events, and passes the message along unchanged. -/
def inspectVisit : List Message → List TraceEvent × List Message
  | [] => ([], [])
  | m :: rest =>
      let r := inspectVisit rest
      (inspectMsgEvents m ++ r.1, m :: r.2)

/-- Embedding of inspect_tool_usage from research_mcp_client.py: the
emitted events together with the transcript as it stands after the
walk. -/
def inspect_tool_usage (msgs : List Message) :
    List TraceEvent × List Message :=
  inspectVisit msgs

/-- C7: the trace inspection is a pure, read-only function of the final
conversation state: the walk leaves the transcript unchanged, and
invoking it a second time on the state left behind by the first
invocation yields identical output. -/
theorem c7_inspector_pure (msgs : List Message) :
    (inspect_tool_usage msgs).2 = msgs ∧
    (inspect_tool_usage ((inspect_tool_usage msgs).2)).1
      = (inspect_tool_usage msgs).1 := by
  have h : ∀ l : List Message, (inspectVisit l).2 = l := by
    intro l
    induction l with
    | nil => rfl
    | cons m t ih => simp [inspectVisit, ih]
  refine ⟨h msgs, ?_⟩
  simp only [inspect_tool_usage]
  rw [h msgs]

/-- Appending one message to the transcript updates the inspection fold
by one step. -/
theorem inspectTrace_append_one (msgs : List Message) (m : Message) :
    inspectTrace (msgs ++ [m]) = inspectStep (inspectTrace msgs) m := by
  simp [inspectTrace, List.foldl_append]

/-- If no assistant message with empty tool calls and non-empty text
occurs in the transcript, the final_answer component of the fold is
whatever it started as. -/
theorem inspect_snd_unassigned (msgs : List Message)
    (hnone : ∀ t, Message.assistant t [] ∈ msgs → t = "") :
    ∀ b o, (msgs.foldl inspectStep (b, o)).2 = o := by
  induction msgs with
  | nil => intro b o; rfl
  | cons m rest ih =>
    intro b o
    have hrest : ∀ t, Message.assistant t [] ∈ rest → t = "" := by
      intro t ht
      exact hnone t (List.mem_cons_of_mem m ht)
    cases m with
    | human txt => simpa [inspectStep] using ih hrest b o
    | toolResult i nm txt => simpa [inspectStep] using ih hrest b o
    | assistant txt calls =>
      rcases hc : calls with _ | ⟨c, cs⟩
      · subst hc
        have htxt : txt = "" := hnone txt (by simp)
        simpa [inspectStep, htxt] using ih hrest b o
      · subst hc
        simpa [inspectStep] using ih hrest true o

/-- Whenever the final_answer component of the fold ends up assigned and
differing from its start, its value is the text of some assistant
message with empty tool calls and non-empty text in the transcript. -/
theorem inspect_snd_source (msgs : List Message) :
    ∀ b o a, (msgs.foldl inspectStep (b, o)).2 = some a →
      o = some a ∨ (Message.assistant a [] ∈ msgs ∧ a ≠ "") := by
  induction msgs with
  | nil => intro b o a h; exact Or.inl h
  | cons m rest ih =>
    intro b o a h
    cases m with
    | human txt =>
      rcases ih _ _ _ (by simpa [inspectStep] using h) with h2 | ⟨h2, h3⟩
      · exact Or.inl h2
      · exact Or.inr ⟨List.mem_cons_of_mem _ h2, h3⟩
    | toolResult i nm txt =>
      rcases ih _ _ _ (by simpa [inspectStep] using h) with h2 | ⟨h2, h3⟩
      · exact Or.inl h2
      · exact Or.inr ⟨List.mem_cons_of_mem _ h2, h3⟩
    | assistant txt calls =>
      rcases hc : calls with _ | ⟨c, cs⟩
      · subst hc
        by_cases ht : txt = ""
        · rcases ih _ _ _ (by simpa [inspectStep, ht] using h) with h2 | ⟨h2, h3⟩
          · exact Or.inl h2
          · exact Or.inr ⟨List.mem_cons_of_mem _ h2, h3⟩
        · rcases ih _ _ _ (by simpa [inspectStep, ht] using h) with h2 | ⟨h2, h3⟩
          · cases h2
            exact Or.inr ⟨by simp, ht⟩
          · exact Or.inr ⟨List.mem_cons_of_mem _ h2, h3⟩
      · subst hc
        rcases ih _ _ _ (by simpa [inspectStep] using h) with h2 | ⟨h2, h3⟩
        · exact Or.inl h2
        · exact Or.inr ⟨List.mem_cons_of_mem _ h2, h3⟩

/-- C9: the final-answer extraction in research_mcp_graph_client.py only
ever records an assistant message with empty tool calls and non-empty
text: appending an assistant turn that carries tool calls never changes
the recorded answer even when its text is non-empty; when no qualifying
assistant message exists the local stays unassigned (so the final print
fails instead of reporting the absence of an answer); and any recorded
answer is the text of a qualifying assistant message of the transcript. -/
theorem c9_final_answer_requires_plain_assistant (msgs : List Message) :
    (∀ t calls, calls ≠ [] →
      final_answer (msgs ++ [.assistant t calls]) = final_answer msgs) ∧
    ((∀ t, Message.assistant t [] ∈ msgs → t = "") →
      final_answer msgs = none) ∧
    (∀ a, final_answer msgs = some a →
      Message.assistant a [] ∈ msgs ∧ a ≠ "") := by
  refine ⟨?_, ?_, ?_⟩
  · intro t calls hne
    rw [final_answer, inspectTrace_append_one]
    have : calls.isEmpty = false := by
      simpa [List.isEmpty_iff] using hne
    simp [inspectStep, this, final_answer]
  · intro hnone
    exact inspect_snd_unassigned msgs hnone false none
  · intro a ha
    rcases inspect_snd_source msgs false none a ha with h | h
    · cases h
    · exact h

/-- Closed instantiation of `c9_final_answer_requires_plain_assistant`:
an assistant turn with text and tool calls is not recorded; a transcript
without a qualifying assistant leaves the answer unassigned; a recorded
answer comes from a qualifying assistant turn. -/
theorem c9_final_answer_witness :
    final_answer ([.human "q"] ++ [.assistant "text" [echoCall]])
        = final_answer [.human "q"] ∧
    final_answer [.human "q", .assistant "text" [echoCall]] = none ∧
    (Message.assistant "ans" [] ∈
        ([.human "q", .assistant "ans" []] : List Message) ∧ "ans" ≠ "") := by
  refine ⟨?_, ?_, ?_⟩
  · exact (c9_final_answer_requires_plain_assistant [.human "q"]).1
      "text" [echoCall] (by simp)
  · refine (c9_final_answer_requires_plain_assistant
      [.human "q", .assistant "text" [echoCall]]).2.1 ?_
    intro t ht
    simp [echoCall] at ht
  · exact (c9_final_answer_requires_plain_assistant
      [.human "q", .assistant "ans" []]).2.2 "ans" (by decide)

/-- Whether a message is the human question. -/
def isHumanB : Message → Bool
  | .human _ => true
  | _ => false

/-- Whether a message is an assistant turn. -/
def isAssistantB : Message → Bool
  | .assistant _ _ => true
  | _ => false

/-- Whether a message is a tool result carrying the given call id. -/
def resultHasId (cid : String) : Message → Bool
  | .toolResult cid2 _ _ => cid2 == cid
  | _ => false

/-- When the ids of a batch are distinct, the results of the batch hold
exactly one tool result per call id. -/
theorem countP_results_eq_one (invoke : Invoker) (calls : List ToolCall)
    (hnodup : (calls.map ToolCall.id).Nodup) (c : ToolCall) (hc : c ∈ calls) :
    (calls.map (mkResult invoke)).countP (resultHasId c.id) = 1 := by
  have h1 : (calls.map (mkResult invoke)).countP (resultHasId c.id)
      = calls.countP (fun c2 => c2.id == c.id) := by
    rw [List.countP_map]
    rfl
  have h2 : calls.countP (fun c2 => c2.id == c.id)
      = (calls.map ToolCall.id).count c.id := by
    rw [List.count_eq_countP, List.countP_map]
    rfl
  rw [h1, h2]
  exact List.count_eq_one_of_mem hnodup (List.mem_map_of_mem ToolCall.id hc)

/-- The head of a transcript survives appending. -/
theorem head?_append_of_head? {l l2 : List Message} {a : Message}
    (h : l.head? = some a) : (l ++ l2).head? = some a := by
  cases l with
  | nil => cases h
  | cons x t => simpa using h

/-- Batch results contain no human message. -/
theorem countP_isHuman_results (invoke : Invoker) (calls : List ToolCall) :
    (calls.map (mkResult invoke)).countP isHumanB = 0 := by
  rw [List.countP_map]
  exact List.countP_eq_zero.mpr
    (fun c hc => by simp [Function.comp, mkResult, isHumanB])

/-- One loop transition only ever appends to the transcript. -/
theorem step_msgs_append (engine : Engine) (invoke : Invoker)
    (s : LoopState) :
    ∃ tail, (stepLoop engine invoke s).msgs = s.msgs ++ tail := by
  cases s with
  | awaitingReasoning m =>
    by_cases he : (engine m).2.isEmpty <;>
      exact ⟨[.assistant (engine m).1 (engine m).2],
        by simp [stepLoop, he, LoopState.msgs]⟩
  | awaitingToolResults m calls =>
    rcases hb : runBatch invoke calls with e | results
    · exact ⟨[], by simp [stepLoop, hb, LoopState.msgs]⟩
    · exact ⟨results, by simp [stepLoop, hb, LoopState.msgs]⟩
  | done m => exact ⟨[], by simp [stepLoop, LoopState.msgs]⟩
  | failed m => exact ⟨[], by simp [stepLoop, LoopState.msgs]⟩

/-- Structural invariant of every reachable loop state: the transcript
begins with the human question, contains exactly one human message, and
a pending batch consists exactly of the calls of the assistant turn the
transcript ends with. -/
theorem loop_reachable_invariant (engine : Engine) (invoke : Invoker)
    (q : String) (n : Nat) :
    ((iterateLoop engine invoke q n).msgs.head? = some (.human q)) ∧
    ((iterateLoop engine invoke q n).msgs.countP isHumanB = 1) ∧
    (∀ msgs calls,
      iterateLoop engine invoke q n = .awaitingToolResults msgs calls →
      ∃ pre t, msgs = pre ++ [.assistant t calls] ∧ calls ≠ []) := by
  induction n with
  | zero =>
    refine ⟨rfl, by simp [iterateLoop, initState, LoopState.msgs, isHumanB], ?_⟩
    intro msgs calls h
    simp [iterateLoop, initState] at h
  | succ n ih =>
    obtain ⟨ihead, icount, ibatch⟩ := ih
    have hsucc : iterateLoop engine invoke q (n + 1)
        = stepLoop engine invoke (iterateLoop engine invoke q n) := by
      rw [iterateLoop, Function.iterate_succ_apply', ← iterateLoop]
    rcases hs : iterateLoop engine invoke q n with m | ⟨m, calls⟩ | m | m
    · rw [hs] at hsucc ihead icount
      by_cases he : (engine m).2.isEmpty
      · rw [hsucc]
        refine ⟨?_, ?_, ?_⟩
        · simp only [stepLoop, he, if_pos, LoopState.msgs] at *
          exact head?_append_of_head? ihead
        · simp [stepLoop, he, LoopState.msgs, List.countP_append,
            List.countP_cons, isHumanB] at *
          exact icount
        · intro msgs calls h
          simp [stepLoop, he] at h
      · rw [hsucc]
        refine ⟨?_, ?_, ?_⟩
        · simp only [stepLoop, he, if_neg, LoopState.msgs] at *
          exact head?_append_of_head? ihead
        · simp [stepLoop, he, LoopState.msgs, List.countP_append,
            List.countP_cons, isHumanB] at *
          exact icount
        · intro msgs calls h
          simp only [stepLoop, he, if_neg] at h
          rcases h with ⟨h1, h2⟩
          refine ⟨m, (engine m).1, rfl, ?_⟩
          simpa [List.isEmpty_iff] using he
    · rw [hs] at hsucc ihead icount
      obtain ⟨pre, t, hshape, hne⟩ := ibatch m calls hs
      rcases hb : runBatch invoke calls with e | results
      · rw [hsucc]
        refine ⟨?_, ?_, ?_⟩
        · simpa [stepLoop, hb, LoopState.msgs] using ihead
        · simpa [stepLoop, hb, LoopState.msgs] using icount
        · intro msgs2 calls2 h
          simp [stepLoop, hb] at h
      · have hres : results = calls.map (mkResult invoke) := by
          rw [runBatch] at hb
          by_cases hall : calls.all (fun c => !(invoke c == .unavailable))
          · rw [if_pos hall] at hb
            cases hb
            rfl
          · rw [if_neg hall] at hb
            cases hb
        rw [hsucc]
        refine ⟨?_, ?_, ?_⟩
        · simp only [stepLoop, hb, LoopState.msgs] at *
          exact head?_append_of_head? ihead
        · simp only [stepLoop, hb, LoopState.msgs] at *
          rw [List.countP_append, hres, countP_isHuman_results, icount]
        · intro msgs2 calls2 h
          simp [stepLoop, hb] at h
    · rw [hs] at hsucc ihead icount
      rw [hsucc]
      refine ⟨?_, ?_, ?_⟩
      · simpa [stepLoop, LoopState.msgs] using ihead
      · simpa [stepLoop, LoopState.msgs] using icount
      · intro msgs2 calls2 h
        simp [stepLoop] at h
    · rw [hs] at hsucc ihead icount
      rw [hsucc]
      refine ⟨?_, ?_, ?_⟩
      · simpa [stepLoop, LoopState.msgs] using ihead
      · simpa [stepLoop, LoopState.msgs] using icount
      · intro msgs2 calls2 h
        simp [stepLoop] at h

/-- C2: every reachable transcript starts with exactly one human message
(at the head, and no other human anywhere); transitions only append,
never edit or remove; and whenever a batch is pending, the batch is the
toolCalls list of the assistant turn the transcript ends with, and one
transition later (before the next assistant turn can be appended) the
transcript has gained exactly one tool result per call id — given
distinct ids within the turn — and nothing else, in particular no
assistant message. -/
theorem c2_transcript_invariants (engine : Engine) (invoke : Invoker)
    (q : String) (n : Nat) :
    ((iterateLoop engine invoke q n).msgs.head? = some (.human q)) ∧
    ((iterateLoop engine invoke q n).msgs.countP isHumanB = 1) ∧
    (∃ tail, (iterateLoop engine invoke q (n + 1)).msgs
        = (iterateLoop engine invoke q n).msgs ++ tail) ∧
    (∀ msgs calls,
      iterateLoop engine invoke q n = .awaitingToolResults msgs calls →
      (∃ pre t, msgs = pre ++ [.assistant t calls]) ∧
      ((calls.map ToolCall.id).Nodup →
        (∀ c ∈ calls, invoke c ≠ .unavailable) →
        iterateLoop engine invoke q (n + 1)
            = .awaitingReasoning (msgs ++ calls.map (mkResult invoke)) ∧
        (∀ c ∈ calls,
          (calls.map (mkResult invoke)).countP (resultHasId c.id) = 1) ∧
        (∀ m ∈ calls.map (mkResult invoke), isAssistantB m = false))) := by
  obtain ⟨ihead, icount, ibatch⟩ := loop_reachable_invariant engine invoke q n
  have hsucc : iterateLoop engine invoke q (n + 1)
      = stepLoop engine invoke (iterateLoop engine invoke q n) := by
    rw [iterateLoop, Function.iterate_succ_apply', ← iterateLoop]
  refine ⟨ihead, icount, ?_, ?_⟩
  · rw [hsucc]
    exact step_msgs_append engine invoke _
  · intro msgs calls hstate
    obtain ⟨pre, t, hshape, hne⟩ := ibatch msgs calls hstate
    refine ⟨⟨pre, t, hshape⟩, ?_⟩
    intro hnodup hno
    have hall : calls.all (fun c => !(invoke c == .unavailable)) = true := by
      rw [List.all_eq_true]
      intro c hc
      simpa using hno c hc
    refine ⟨?_, ?_, ?_⟩
    · rw [hsucc, hstate]
      simp [stepLoop, runBatch, hall]
    · intro c hc
      exact countP_results_eq_one invoke calls hnodup c hc
    · intro m hm
      obtain ⟨c, _, rfl⟩ := List.mem_map.mp hm
      rfl

/-- Closed instantiation of `c2_transcript_invariants` on the run driven
by an always-tool engine, one transition after the first batch became
pending. -/
theorem c2_transcript_invariants_witness :
    ((iterateLoop alwaysToolEngine okInvoke "q" 1).msgs.head?
        = some (.human "q")) ∧
    ((iterateLoop alwaysToolEngine okInvoke "q" 1).msgs.countP isHumanB = 1) ∧
    iterateLoop alwaysToolEngine okInvoke "q" 2
      = .awaitingReasoning ([.human "q", .assistant "" [echoCall]]
          ++ [echoCall].map (mkResult okInvoke)) ∧
    ([echoCall].map (mkResult okInvoke)).countP (resultHasId "call-0") = 1 := by
  have h := c2_transcript_invariants alwaysToolEngine okInvoke "q" 1
  have hstate : iterateLoop alwaysToolEngine okInvoke "q" 1
      = .awaitingToolResults [.human "q", .assistant "" [echoCall]]
          [echoCall] := by decide
  have h4 := ((h.2.2.2 _ _ hstate).2 (by decide)
    (by intro c hc; simp [okInvoke]))
  exact ⟨h.1, h.2.1, h4.1, h4.2.1 echoCall (by decide)⟩

end ResearchMCP
